import Mathlib

/-!
Verification development for the `pqc_mechanisms` McEliece KEM demo.

The repository's only source file, `src/code_based/mceliece/Rust/src/main.rs`,
is a driver that calls `keypair`, `encapsulate` and `decapsulate` from the
external `classic_mceliece_rust` crate and prints sizes and hex dumps.  The
KEM core itself is not part of the repository, so following the specification
(spec.md §2–§7) we embed the KEM core it describes: a code-based KEM over a
binary linear code in systematic form, with rejection-sampled weight-t error
vectors, syndrome ciphertexts, hashed shared secrets with domain separation,
and implicit rejection on decoding failure.  Bit vectors are `List Bool`,
matrices are row lists, byte strings are `List Nat`, and the entropy source
(spec §6) is a bit stream `Nat → Bool` together with a retry-fuel bound whose
exhaustion models the fatal EntropyExhausted condition (spec §7).
-/

namespace McElieceKEM

/-- GF(2) inner product of two bit vectors (spec §4.1: addition is XOR). -/
def dot (xs ys : List Bool) : Bool :=
  (List.zipWith (fun a b => a && b) xs ys).foldr Bool.xor false

/-- Syndrome of an error vector `e` for parity-check matrix `H`
(spec §4.3: Ciphertext = parity rows of the matrix applied to the vector). -/
def syndrome (H : List (List Bool)) (e : List Bool) : List Bool :=
  H.map (fun row => dot row e)

/-- Hamming weight of a bit vector (spec §3: ErrorVector weight). -/
def weight (e : List Bool) : Nat := e.count true

/-- Modelled from the spec: code parameters (n, k, t) of §2/§9; the KEM core
is parameterized by them, with n − k parity rows. -/
structure Params where
  n : Nat
  k : Nat
  t : Nat
deriving DecidableEq

/-- Modelled from the spec (§3): the PublicKey is the systematic part of the
parity-check matrix, an (n−k) × k binary matrix, row by row. -/
abbrev PublicKey := List (List Bool)

/-- Modelled from the spec (§3): the PrivateKey holds a compact representation
enabling efficient decoding — here the full systematic parity-check matrix
standing in for (Goppa polynomial, support) — together with the fixed secret
`s` used by the implicit-rejection branch of §4.5. -/
structure PrivateKey where
  H : List (List Bool)
  s : List Bool
deriving DecidableEq

/-- Row `i` of the (n−k) identity block of a systematic parity-check matrix. -/
def stdRow (d i : Nat) : List Bool :=
  (List.range d).map (fun j => decide (j = i))

/-- Modelled from the spec (§4.2 output): the full parity-check matrix in
systematic form, the identity block prepended to each public-key row.  The
row count is always n − k, matching the fixed-size syndrome of §3. -/
def systH (P : Params) (T : PublicKey) : List (List Bool) :=
  (List.range (P.n - P.k)).map
    (fun i => stdRow (P.n - P.k) i ++ T.getD i (List.replicate P.k false))

/-- Modelled from the spec (§4.3 Encoder): Ciphertext = parity-check matrix
of the public key applied to the error vector over GF(2). -/
def encode (P : Params) (T : PublicKey) (e : List Bool) : List Bool :=
  syndrome (systH P T) e

/-- Read `cnt` consecutive bits of the entropy stream starting at `off`
(spec §6 EntropySource, as a bit stream). -/
def readBits (s : Nat → Bool) (off cnt : Nat) : List Bool :=
  (List.range cnt).map (fun i => s (off + i))

/-- Read a `rows × cols` bit matrix from the entropy stream. -/
def readMat (s : Nat → Bool) (off rows cols : Nat) : List (List Bool) :=
  (List.range rows).map (fun i => readBits s (off + i * cols) cols)

/-- All bit vectors of length `n`, the search space of bounded-distance
decoding in the model. -/
def allVecs : Nat → List (List Bool)
  | 0 => [[]]
  | n + 1 => ((allVecs n).map (List.cons false)) ++ ((allVecs n).map (List.cons true))

/-- Modelled from the spec: validity of a generated code.  The irreducible
Goppa construction of §4.2 (absent from the repository together with the rest
of the crate) guarantees a code with error-correction radius t (Glossary:
bounded-distance decoding recovers the unique error pattern within the
radius); the model captures that guarantee as the decidable condition checked
inside the key-generation retry loop: any two error vectors of weight ≤ t
with equal syndromes coincide. -/
def tCorrecting (P : Params) (H : List (List Bool)) : Bool :=
  (allVecs P.n).all fun e1 => (allVecs P.n).all fun e2 =>
    if weight e1 ≤ P.t ∧ weight e2 ≤ P.t ∧ syndrome H e1 = syndrome H e2
    then e1 == e2 else true

/-- Modelled from the spec (§4.2): the key-generation retry loop — sample a
candidate systematic matrix from the entropy stream, accept it when the code
is valid, otherwise retry on fresh entropy; `none` models the fatal
EntropyExhausted condition of §7. -/
def keypairLoop (P : Params) (s : Nat → Bool) (off : Nat) : Nat → Option PublicKey
  | 0 => none
  | fuel + 1 =>
    let T := readMat s off (P.n - P.k) P.k
    if tCorrecting P (systH P T) then some T
    else keypairLoop P s (off + (P.n - P.k) * P.k) fuel

/-- Modelled from the spec (§4.5 KeyGen / §4.2): produce a
(PublicKey, PrivateKey) pair from the entropy stream; the first n bits feed
the implicit-rejection secret, the rest the matrix retry loop. -/
def keypair (P : Params) (s : Nat → Bool) (fuel : Nat) :
    Option (PublicKey × PrivateKey) :=
  match keypairLoop P s P.n fuel with
  | none => none
  | some T => some (T, ⟨systH P T, readBits s 0 P.n⟩)

/-- Modelled from the spec (§4.5 Encapsulate, §7 InternalRetry): rejection
sampling of a fresh length-n error vector, retried until the Hamming-weight-t
constraint holds; `none` models EntropyExhausted. -/
def sampleError (P : Params) (s : Nat → Bool) (off : Nat) : Nat → Option (List Bool)
  | 0 => none
  | fuel + 1 =>
    let cand := readBits s off P.n
    if weight cand = P.t then some cand
    else sampleError P s (off + P.n) fuel

/-- Domain-separation tag for the success branch of §4.5 (also used by
Encapsulate: round-trip correctness of §8 forces the encapsulation tag and
the decapsulation success tag to coincide). -/
def tagSuccess : Nat := 1

/-- Domain-separation tag for the implicit-rejection branch of §4.5. -/
def tagReject : Nat := 0

/-- Bit vector as a byte-per-bit string fed to the hash. -/
def bitsToNats (l : List Bool) : List Nat :=
  l.map (fun b => if b then 1 else 0)

/-- Hash input of the success branch:
domain-tag ‖ ErrorVector ‖ Ciphertext (spec §4.5). -/
def hashInputOK (e c : List Bool) : List Nat :=
  tagSuccess :: (bitsToNats e ++ bitsToNats c)

/-- Hash input of the implicit-rejection branch:
domain-tag-failure ‖ fixed-secret-derived-from-PrivateKey ‖ Ciphertext
(spec §4.5). -/
def hashInputRej (s c : List Bool) : List Nat :=
  tagReject :: (bitsToNats s ++ bitsToNats c)

/-- Modelled from the spec (§4.5 Encapsulate): sample a weight-t error
vector, encode it into the syndrome ciphertext, and hash with the domain
tag; the hash (spec §6) is an abstract 32-byte-output function parameter. -/
def encapsulate (P : Params) (hash : List Nat → List Nat) (pk : PublicKey)
    (s : Nat → Bool) (fuel : Nat) : Option (List Bool × List Nat) :=
  match sampleError P s 0 fuel with
  | none => none
  | some e =>
    let c := encode P pk e
    some (c, hash (hashInputOK e c))

/-- Modelled from the spec (§4.4 Decoder contract): recover the unique
ErrorVector of weight ≤ t consistent with the ciphertext, or determine that
no such vector exists. -/
def decodeBD (P : Params) (H : List (List Bool)) (c : List Bool) :
    Option (List Bool) :=
  match (allVecs P.n).filter
      (fun e => decide (weight e ≤ P.t) && (syndrome H e == c)) with
  | [e] => some e
  | _ => none

/-- Modelled from the spec (§4.5 Decapsulate with §4.4 edge cases): run the
decoder; on success (recovered weight exactly t and re-encoding reproduces
the ciphertext) hash the success input, otherwise fall through to implicit
rejection — a total function, never an error. -/
def decapsulate (P : Params) (hash : List Nat → List Nat) (sk : PrivateKey)
    (c : List Bool) : List Nat :=
  match decodeBD P sk.H c with
  | some e =>
    if weight e = P.t ∧ syndrome sk.H e = c
    then hash (hashInputOK e c)
    else hash (hashInputRej sk.s c)
  | none => hash (hashInputRej sk.s c)

/-- Pack `m` bytes out of a bit list, 8 bits (big-endian within the byte)
per byte. -/
def byteOfBits (bs : List Bool) : Nat :=
  bs.foldl (fun a b => 2 * a + (if b then 1 else 0)) 0

/-- Pack the first `m` bytes of a bit list. -/
def packGo : Nat → List Bool → List Nat
  | 0, _ => []
  | m + 1, bs => byteOfBits (bs.take 8) :: packGo m (bs.drop 8)

/-- Pack a bit vector into ⌈length/8⌉ bytes (spec §3: syndrome bits packed
into a fixed byte length; §6: the core exposes raw fixed-length byte
sequences). -/
def pack (bs : List Bool) : List Nat :=
  packGo ((bs.length + 7) / 8) bs

/-- Ciphertext byte length of a parameter set: (n−k) bits packed. -/
def ctBytes (P : Params) : Nat := ((P.n - P.k) + 7) / 8

/-- Public-key byte length of a parameter set: (n−k)·k matrix bits packed. -/
def pkBytes (P : Params) : Nat := ((P.n - P.k) * P.k + 7) / 8

/-- Shared-secret byte length declared by the crate (`CRYPTO_BYTES`,
main.rs line 2). -/
def CRYPTO_BYTES : Nat := 32

/-- Public-key byte length declared by the crate (`CRYPTO_PUBLICKEYBYTES`,
main.rs line 2). -/
def CRYPTO_PUBLICKEYBYTES : Nat := 261120

/-- Secret-key byte length declared by the crate (`CRYPTO_SECRETKEYBYTES`,
main.rs line 2). -/
def CRYPTO_SECRETKEYBYTES : Nat := 6492

/-- The illustrative parameter set of spec §6/§9 (mceliece348864):
n = 3488, k = 2720, t = 64, so n − k = 768 parity bits = 96 ciphertext
bytes and a 768 × 2720-bit public key = 261120 bytes. -/
def Params348864 : Params := ⟨3488, 2720, 64⟩

/-- Upper bound on the entropy-stream indices `keypair` reads: n bits for
the rejection secret plus (n−k)·k bits per retry attempt. -/
def keypairBudget (P : Params) (fuel : Nat) : Nat :=
  P.n + fuel * ((P.n - P.k) * P.k)

/-- Flip bit `i` of a bit vector (the single-bit corruption of spec §8). -/
def flipBit : List Bool → Nat → List Bool
  | [], _ => []
  | b :: tl, 0 => (!b) :: tl
  | b :: tl, i + 1 => b :: flipBit tl i

/-- State of the demo driver after encapsulation (main.rs lines 35–44):
the ciphertext, Alice's shared secret and the buffer Bob writes into. -/
structure DemoState where
  ct : List Bool
  ssAlice : List Nat
  ssBob : List Nat
deriving DecidableEq

/-- Step 3 of the demo (main.rs lines 49–53): Bob decapsulates the
ciphertext into his own buffer; ciphertext and Alice's secret are only
read. -/
def demoStep3 (P : Params) (hash : List Nat → List Nat) (sk : PrivateKey)
    (st : DemoState) : DemoState :=
  { st with ssBob := decapsulate P hash sk st.ct }

/-- Step 4 of the demo (main.rs line 60): the verification compares the two
shared secrets byte for byte. -/
def secretsMatch (st : DemoState) : Bool := st.ssAlice == st.ssBob

/-- Toy parameter set used by the concrete witnesses: n = 4, k = 1, t = 1,
so the systematic parity-check matrix has 3 rows and the (unique) valid
public key column makes the length-4 repetition code, which corrects one
error. -/
def ParamsToy : Params := ⟨4, 1, 1⟩

/-- Concrete entropy stream for the witness key generation: rejection secret
0000, then public-key column bits 111. -/
def sGenToy : Nat → Bool := fun i =>
  [false, false, false, false, true, true, true].getD i false

/-- A second entropy stream agreeing with `sGenToy` on the consumed prefix
(indices below `keypairBudget ParamsToy 1` = 7) but differing beyond it. -/
def sGenToyB : Nat → Bool := fun i =>
  [false, false, false, false, true, true, true].getD i true

/-- Concrete entropy stream for the witness encapsulation: first candidate
error vector 1000 already has weight 1. -/
def sEncToy : Nat → Bool := fun i =>
  [true, false, false, false].getD i false

/-- The toy public key produced by `keypair ParamsToy sGenToy 1`. -/
def pkToy : PublicKey := [[true], [true], [true]]

/-- The toy private key produced by `keypair ParamsToy sGenToy 1`. -/
def skToy : PrivateKey :=
  ⟨[[true, false, false, true], [false, true, false, true], [false, false, true, true]],
   [false, false, false, false]⟩

/-- The toy error vector sampled by `encapsulate` from `sEncToy`. -/
def eToy : List Bool := [true, false, false, false]

/-- The toy ciphertext `encode ParamsToy pkToy eToy`. -/
def ctToy : List Bool := [true, false, false]

/-- Injective encoding of a byte string into one natural number, used to
build the witness hash. -/
def encodeL : List Nat → Nat
  | [] => 0
  | a :: l => Nat.pair a (encodeL l) + 1

/-- Concrete injective 32-byte-output hash used by the witnesses, standing
in for the abstract Hash collaborator of spec §6. -/
def wHash (x : List Nat) : List Nat :=
  encodeL x :: List.replicate 31 0

/-- The toy shared secret computed by `encapsulate`. -/
def ssToy : List Nat := wHash (hashInputOK eToy ctToy)

theorem length_readBits (s : Nat → Bool) (off cnt : Nat) :
    (readBits s off cnt).length = cnt := by
  simp [readBits]

theorem readMat_length (s : Nat → Bool) (off rows cols : Nat) :
    (readMat s off rows cols).length = rows := by
  simp [readMat]

theorem readMat_rows (s : Nat → Bool) (off rows cols : Nat) :
    ∀ row ∈ readMat s off rows cols, row.length = cols := by
  intro row hrow
  simp only [readMat, List.mem_map, List.mem_range] at hrow
  obtain ⟨i, _, rfl⟩ := hrow
  exact length_readBits ..

theorem readBits_congr {s1 s2 : Nat → Bool} (off cnt : Nat)
    (h : ∀ i, i < off + cnt → s1 i = s2 i) :
    readBits s1 off cnt = readBits s2 off cnt := by
  unfold readBits
  apply List.map_congr_left
  intro i hi
  rw [List.mem_range] at hi
  exact h (off + i) (by omega)

theorem readMat_congr {s1 s2 : Nat → Bool} (off rows cols : Nat)
    (h : ∀ i, i < off + rows * cols → s1 i = s2 i) :
    readMat s1 off rows cols = readMat s2 off rows cols := by
  unfold readMat
  apply List.map_congr_left
  intro i hi
  rw [List.mem_range] at hi
  apply readBits_congr
  intro j hj
  apply h
  have hstep : i * cols + cols ≤ rows * cols := by
    calc i * cols + cols = (i + 1) * cols := by ring
    _ ≤ rows * cols := Nat.mul_le_mul_right cols (Nat.succ_le_of_lt hi)
  omega

theorem mem_allVecs (n : Nat) (e : List Bool) (h : e.length = n) :
    e ∈ allVecs n := by
  induction n generalizing e with
  | zero =>
    rw [List.length_eq_zero] at h
    subst h
    simp [allVecs]
  | succ n ih =>
    cases e with
    | nil => simp at h
    | cons b tl =>
      have htl : tl.length = n := by simpa using h
      have hmem := ih tl htl
      simp only [allVecs, List.mem_append, List.mem_map]
      cases b
      · exact Or.inl ⟨tl, hmem, rfl⟩
      · exact Or.inr ⟨tl, hmem, rfl⟩

theorem length_of_mem_allVecs (n : Nat) (e : List Bool) (h : e ∈ allVecs n) :
    e.length = n := by
  induction n generalizing e with
  | zero =>
    simp only [allVecs, List.mem_singleton] at h
    subst h
    rfl
  | succ n ih =>
    simp only [allVecs, List.mem_append, List.mem_map] at h
    rcases h with ⟨tl, htl, rfl⟩ | ⟨tl, htl, rfl⟩ <;> simp [ih tl htl]

theorem allVecs_nodup (n : Nat) : (allVecs n).Nodup := by
  induction n with
  | zero => simp [allVecs]
  | succ n ih =>
    simp only [allVecs]
    apply List.Nodup.append
    · exact ih.map (fun a b hab => by injection hab)
    · exact ih.map (fun a b hab => by injection hab)
    · intro x hx hy
      rcases List.mem_map.mp hx with ⟨a, _, rfl⟩
      rcases List.mem_map.mp hy with ⟨b, _, hb⟩
      simp at hb

theorem nodup_all_eq_singleton {α : Type} {m : List α} {a : α}
    (hnd : m.Nodup) (ha : a ∈ m) (hall : ∀ x ∈ m, x = a) : m = [a] := by
  cases m with
  | nil => cases ha
  | cons b tl =>
    have hb : b = a := hall b (List.mem_cons_self b tl)
    subst hb
    cases tl with
    | nil => rfl
    | cons c tl2 =>
      have hc : c = b := hall c (by simp)
      subst hc
      rcases List.nodup_cons.mp hnd with ⟨hnotin, -⟩
      exact absurd (by simp) hnotin

theorem filter_singleton_of_unique {α : Type} {l : List α} {p : α → Bool} {a : α}
    (hnd : l.Nodup) (ha : a ∈ l) (hpa : p a = true)
    (huniq : ∀ x ∈ l, p x = true → x = a) : l.filter p = [a] := by
  apply nodup_all_eq_singleton (hnd.filter p)
  · exact List.mem_filter.mpr ⟨ha, hpa⟩
  · intro x hx
    rcases List.mem_filter.mp hx with ⟨hxl, hpx⟩
    exact huniq x hxl hpx

theorem tCorrecting_unique {P : Params} {H : List (List Bool)}
    (h : tCorrecting P H = true) {e1 e2 : List Bool}
    (h1 : e1 ∈ allVecs P.n) (h2 : e2 ∈ allVecs P.n)
    (hw1 : weight e1 ≤ P.t) (hw2 : weight e2 ≤ P.t)
    (hs : syndrome H e1 = syndrome H e2) : e1 = e2 := by
  unfold tCorrecting at h
  simp only [List.all_eq_true] at h
  have h3 := h e1 h1 e2 h2
  rw [if_pos ⟨hw1, hw2, hs⟩] at h3
  exact eq_of_beq h3

theorem keypairLoop_some {P : Params} {s : Nat → Bool} {T : PublicKey}
    (fuel off : Nat) (h : keypairLoop P s off fuel = some T) :
    tCorrecting P (systH P T) = true ∧
      T.length = P.n - P.k ∧ ∀ row ∈ T, row.length = P.k := by
  induction fuel generalizing off with
  | zero => simp [keypairLoop] at h
  | succ fuel ih =>
    simp only [keypairLoop] at h
    by_cases hc : tCorrecting P (systH P (readMat s off (P.n - P.k) P.k)) = true
    · rw [if_pos hc] at h
      injection h with h
      subst h
      exact ⟨hc, readMat_length s off (P.n - P.k) P.k, readMat_rows s off (P.n - P.k) P.k⟩
    · rw [if_neg hc] at h
      exact ih _ h

theorem keypair_some {P : Params} {s : Nat → Bool} {fuel : Nat}
    {pk : PublicKey} {sk : PrivateKey}
    (h : keypair P s fuel = some (pk, sk)) :
    keypairLoop P s P.n fuel = some pk ∧
      sk = ⟨systH P pk, readBits s 0 P.n⟩ := by
  unfold keypair at h
  cases hl : keypairLoop P s P.n fuel with
  | none => rw [hl] at h; cases h
  | some T =>
    rw [hl] at h
    injection h with h
    injection h with h1 h2
    subst h1
    exact ⟨rfl, h2.symm⟩

theorem keypairLoop_congr {P : Params} {s1 s2 : Nat → Bool} (fuel : Nat) :
    ∀ off, (∀ i, i < off + fuel * ((P.n - P.k) * P.k) → s1 i = s2 i) →
      keypairLoop P s1 off fuel = keypairLoop P s2 off fuel := by
  induction fuel with
  | zero => intro off h; rfl
  | succ fuel ih =>
    intro off h
    have hsm : (fuel + 1) * ((P.n - P.k) * P.k)
        = fuel * ((P.n - P.k) * P.k) + (P.n - P.k) * P.k := by ring
    have hmat : readMat s1 off (P.n - P.k) P.k = readMat s2 off (P.n - P.k) P.k := by
      apply readMat_congr
      intro i hi
      exact h i (by omega)
    simp only [keypairLoop]
    rw [hmat]
    by_cases hc : tCorrecting P (systH P (readMat s2 off (P.n - P.k) P.k)) = true
    · rw [if_pos hc, if_pos hc]
    · rw [if_neg hc, if_neg hc]
      apply ih
      intro i hi
      exact h i (by omega)

theorem sampleError_some {P : Params} {s : Nat → Bool} {e : List Bool}
    (fuel : Nat) : ∀ off, sampleError P s off fuel = some e →
    e.length = P.n ∧ weight e = P.t ∧
      ∃ j, j < fuel ∧ e = readBits s (off + j * P.n) P.n ∧
        ∀ j', j' < j → weight (readBits s (off + j' * P.n) P.n) ≠ P.t := by
  induction fuel with
  | zero => intro off h; simp [sampleError] at h
  | succ fuel ih =>
    intro off h
    simp only [sampleError] at h
    by_cases hc : weight (readBits s off P.n) = P.t
    · rw [if_pos hc] at h
      injection h with h
      subst h
      refine ⟨length_readBits .., hc, 0, Nat.succ_pos fuel, by simp, ?_⟩
      intro j' hj'
      omega
    · rw [if_neg hc] at h
      obtain ⟨hlen, hw, j, hj, he, hprev⟩ := ih _ h
      refine ⟨hlen, hw, j + 1, by omega, ?_, ?_⟩
      · rw [he]
        congr 1
        ring
      · intro j' hj'
        cases j' with
        | zero => simpa using hc
        | succ j'' =>
          have harith : off + (j'' + 1) * P.n = off + P.n + j'' * P.n := by ring
          rw [harith]
          exact hprev j'' (by omega)

theorem encapsulate_some {P : Params} {hash : List Nat → List Nat}
    {pk : PublicKey} {s : Nat → Bool} {fuel : Nat} {c : List Bool}
    {ss : List Nat} (h : encapsulate P hash pk s fuel = some (c, ss)) :
    ∃ e, sampleError P s 0 fuel = some e ∧ c = encode P pk e ∧
      ss = hash (hashInputOK e c) := by
  unfold encapsulate at h
  cases hs : sampleError P s 0 fuel with
  | none => rw [hs] at h; cases h
  | some e =>
    rw [hs] at h
    injection h with h
    injection h with h1 h2
    refine ⟨e, rfl, h1.symm, ?_⟩
    rw [← h2, h1]

theorem decodeBD_some {P : Params} {H : List (List Bool)} {c e : List Bool}
    (h : decodeBD P H c = some e) :
    e ∈ allVecs P.n ∧ weight e ≤ P.t ∧ syndrome H e = c := by
  unfold decodeBD at h
  cases hf : (allVecs P.n).filter
      (fun x => decide (weight x ≤ P.t) && (syndrome H x == c)) with
  | nil => rw [hf] at h; cases h
  | cons a tl =>
    cases tl with
    | nil =>
      rw [hf] at h
      injection h with h
      have ha : a ∈ (allVecs P.n).filter
          (fun x => decide (weight x ≤ P.t) && (syndrome H x == c)) := by
        rw [hf]; exact List.mem_cons_self a []
      rcases List.mem_filter.mp ha with ⟨hmem, hpred⟩
      rcases (Bool.and_eq_true _ _).mp hpred with ⟨hw, hs⟩
      rw [← h]
      exact ⟨hmem, of_decide_eq_true hw, eq_of_beq hs⟩
    | cons b tl2 => rw [hf] at h; cases h

theorem decapsulate_decode_some {P : Params} {hash : List Nat → List Nat}
    {sk : PrivateKey} {c e : List Bool} (h1 : decodeBD P sk.H c = some e)
    (h2 : weight e = P.t) (h3 : syndrome sk.H e = c) :
    decapsulate P hash sk c = hash (hashInputOK e c) := by
  simp only [decapsulate, h1]
  rw [if_pos ⟨h2, h3⟩]

theorem decapsulate_cases {P : Params} {hash : List Nat → List Nat}
    {sk : PrivateKey} {c : List Bool} :
    decapsulate P hash sk c = hash (hashInputRej sk.s c) ∨
      ∃ e, decodeBD P sk.H c = some e ∧ weight e = P.t ∧
        syndrome sk.H e = c ∧
        decapsulate P hash sk c = hash (hashInputOK e c) := by
  cases hd : decodeBD P sk.H c with
  | none => left; simp only [decapsulate, hd]
  | some e =>
    by_cases hok : weight e = P.t ∧ syndrome sk.H e = c
    · right
      refine ⟨e, rfl, hok.1, hok.2, ?_⟩
      simp only [decapsulate, hd]
      rw [if_pos hok]
    · left
      simp only [decapsulate, hd]
      rw [if_neg hok]

theorem length_syndrome (H : List (List Bool)) (e : List Bool) :
    (syndrome H e).length = H.length := by
  simp [syndrome]

theorem length_systH (P : Params) (T : PublicKey) :
    (systH P T).length = P.n - P.k := by
  simp [systH]

theorem length_packGo (m : Nat) : ∀ bs, (packGo m bs).length = m := by
  induction m with
  | zero => intro bs; rfl
  | succ m ih => intro bs; simp [packGo, ih]

theorem length_pack (bs : List Bool) : (pack bs).length = (bs.length + 7) / 8 := by
  simp [pack, length_packGo]

theorem length_flatten_of_dims {T : List (List Bool)} {k : Nat}
    (h : ∀ row ∈ T, row.length = k) : T.flatten.length = T.length * k := by
  induction T with
  | nil => simp
  | cons row tl ih =>
    have hrow : row.length = k := h row (List.mem_cons_self row tl)
    have htl : tl.flatten.length = tl.length * k :=
      ih (fun x hx => h x (List.mem_cons_of_mem row hx))
    simp only [List.flatten_cons, List.length_append, List.length_cons, hrow, htl]
    ring

theorem flipBit_ne {c : List Bool} : ∀ {i : Nat}, i < c.length → flipBit c i ≠ c := by
  induction c with
  | nil => intro i hi; simp at hi
  | cons b tl ih =>
    intro i hi
    cases i with
    | zero =>
      simp only [flipBit]
      intro heq
      injection heq with h1 _
      cases b <;> simp at h1
    | succ j =>
      simp only [flipBit]
      intro heq
      injection heq with _ h2
      have hj : j < tl.length := by simp only [List.length_cons] at hi; omega
      exact ih hj h2

theorem length_bitsToNats (l : List Bool) : (bitsToNats l).length = l.length := by
  simp [bitsToNats]

theorem bitsToNats_injective : Function.Injective bitsToNats := by
  apply List.map_injective_iff.mpr
  intro a b hab
  cases a <;> cases b <;> simp_all

theorem encodeL_injective : Function.Injective encodeL := by
  intro x
  induction x with
  | nil =>
    intro y h
    cases y with
    | nil => rfl
    | cons b m => simp [encodeL] at h
  | cons a l ih =>
    intro y h
    cases y with
    | nil => simp [encodeL] at h
    | cons b m =>
      simp only [encodeL, Nat.add_right_cancel_iff] at h
      obtain ⟨h1, h2⟩ := Nat.pair_eq_pair.mp h
      rw [h1, ih h2]

theorem wHash_injective : Function.Injective wHash := by
  intro x y h
  unfold wHash at h
  injection h with h1 _
  exact encodeL_injective h1

theorem wHash_length (x : List Nat) : (wHash x).length = 32 := by
  simp [wHash]

/-- C1: for every key pair returned by `keypair` and every successful
`encapsulate` with the public key, `decapsulate` of the resulting ciphertext
with the matching private key yields exactly the SharedSecret that
`encapsulate` returned (round-trip correctness). -/
theorem encap_decap_roundtrip (P : Params) (hash : List Nat → List Nat)
    (s1 s2 : Nat → Bool) (f1 f2 : Nat) (pk : PublicKey) (sk : PrivateKey)
    (c : List Bool) (ss : List Nat)
    (hk : keypair P s1 f1 = some (pk, sk))
    (he : encapsulate P hash pk s2 f2 = some (c, ss)) :
    decapsulate P hash sk c = ss := by
  obtain ⟨hloop, hsk⟩ := keypair_some hk
  obtain ⟨hcorr, -, -⟩ := keypairLoop_some _ _ hloop
  obtain ⟨e, hse, hc, hss⟩ := encapsulate_some he
  obtain ⟨hlenE, hw, -⟩ := sampleError_some _ _ hse
  have hskH : sk.H = systH P pk := by rw [hsk]
  unfold encode at hc
  have hmem : e ∈ allVecs P.n := mem_allVecs P.n e hlenE
  have hfil : (allVecs P.n).filter
      (fun x => decide (weight x ≤ P.t) && (syndrome (systH P pk) x == c)) = [e] := by
    apply filter_singleton_of_unique (allVecs_nodup P.n) hmem
    · rw [Bool.and_eq_true]
      exact ⟨decide_eq_true (le_of_eq hw), beq_iff_eq.mpr hc.symm⟩
    · intro x hx hpx
      rw [Bool.and_eq_true] at hpx
      exact tCorrecting_unique hcorr hx hmem (of_decide_eq_true hpx.1)
        (le_of_eq hw) ((eq_of_beq hpx.2).trans hc)
  have hdec : decodeBD P sk.H c = some e := by
    rw [hskH]
    unfold decodeBD
    rw [hfil]
  rw [decapsulate_decode_some hdec hw (by rw [hskH, ← hc]), hss]

/-- Concrete witness for `encap_decap_roundtrip`: a full round trip at the
toy parameter set. -/
theorem encap_decap_roundtrip_witness :
    decapsulate ParamsToy wHash skToy ctToy = ssToy :=
  encap_decap_roundtrip ParamsToy wHash sGenToy sEncToy 1 1 pkToy skToy ctToy
    ssToy (by decide) (by decide)

/-- C2: decapsulation is a total function — for every private key and every
ciphertext, well-formed or malformed (any bit list at all), it returns a
well-formed 32-byte SharedSecret; decoding failure is absorbed by the
implicit-rejection branch and never surfaces as an error. -/
theorem decapsulate_total_wellformed (P : Params) (hash : List Nat → List Nat)
    (sk : PrivateKey) (c : List Bool) (hL : ∀ x, (hash x).length = 32) :
    (decapsulate P hash sk c).length = 32 := by
  rcases @decapsulate_cases P hash sk c with h | ⟨e, -, -, -, h⟩ <;>
    rw [h] <;> exact hL _

/-- Concrete witness for `decapsulate_total_wellformed` on a malformed
(wrong-length) ciphertext. -/
theorem decapsulate_total_wellformed_witness :
    (decapsulate ParamsToy wHash skToy [true]).length = 32 :=
  decapsulate_total_wellformed ParamsToy wHash skToy [true] wHash_length

/-- C3: output sizes are fixed by the parameter set — every ciphertext
returned by `encapsulate` has exactly n−k bits, hence exactly `ctBytes`
bytes when packed, and every shared secret has exactly `CRYPTO_BYTES` = 32
bytes; at the illustrative parameter set the sizes are the printed constants:
96 ciphertext bytes, 261120 public-key bytes, 6492 secret-key bytes. -/
theorem output_byte_lengths :
    (∀ (P : Params) (hash : List Nat → List Nat) (pk : PublicKey)
        (s : Nat → Bool) (fuel : Nat) (c : List Bool) (ss : List Nat),
      (∀ x, (hash x).length = 32) →
      encapsulate P hash pk s fuel = some (c, ss) →
      c.length = P.n - P.k ∧ (pack c).length = ctBytes P ∧
        ss.length = CRYPTO_BYTES) ∧
    ctBytes Params348864 = 96 ∧ pkBytes Params348864 = CRYPTO_PUBLICKEYBYTES ∧
    CRYPTO_PUBLICKEYBYTES = 261120 ∧ CRYPTO_SECRETKEYBYTES = 6492 ∧
    CRYPTO_BYTES = 32 := by
  constructor
  · intro P hash pk s fuel c ss hL he
    obtain ⟨e, -, hc, hss⟩ := encapsulate_some he
    have hclen : c.length = P.n - P.k := by
      rw [hc]
      unfold encode
      rw [length_syndrome, length_systH]
    refine ⟨hclen, ?_, by rw [hss]; exact hL _⟩
    rw [length_pack, hclen]
    rfl
  · exact ⟨by decide, by decide, rfl, rfl, rfl⟩

/-- Concrete witness for `output_byte_lengths` at the toy parameter set. -/
theorem output_byte_lengths_witness :
    ctToy.length = ParamsToy.n - ParamsToy.k ∧
      (pack ctToy).length = ctBytes ParamsToy ∧ ssToy.length = CRYPTO_BYTES :=
  output_byte_lengths.1 ParamsToy wHash pkToy sEncToy 1 ctToy ssToy
    wHash_length (by decide)

/-- C4: flipping any single bit of a valid ciphertext leaves decapsulation
total (it still returns a well-formed 32-byte secret) and, for a
collision-free hash (the model of "with overwhelming probability"), the
returned SharedSecret differs from the honest one. -/
theorem bitflip_changes_secret (P : Params) (hash : List Nat → List Nat)
    (s1 s2 : Nat → Bool) (f1 f2 : Nat) (pk : PublicKey) (sk : PrivateKey)
    (c : List Bool) (ss : List Nat) (i : Nat)
    (hInj : Function.Injective hash) (hL : ∀ x, (hash x).length = 32)
    (hk : keypair P s1 f1 = some (pk, sk))
    (he : encapsulate P hash pk s2 f2 = some (c, ss)) (hi : i < c.length) :
    decapsulate P hash sk (flipBit c i) ≠ ss ∧
      (decapsulate P hash sk (flipBit c i)).length = 32 := by
  obtain ⟨e, hse, hc, hss⟩ := encapsulate_some he
  obtain ⟨hlenE, hw, -⟩ := sampleError_some _ _ hse
  have hne : flipBit c i ≠ c := flipBit_ne hi
  constructor
  · rcases @decapsulate_cases P hash sk (flipBit c i) with h | ⟨e', hd, -, -, h⟩
    · rw [h, hss]
      intro heq
      have hlists := hInj heq
      unfold hashInputRej hashInputOK at hlists
      injection hlists with h1 _
      simp [tagReject, tagSuccess] at h1
    · rw [h, hss]
      intro heq
      have hlists := hInj heq
      unfold hashInputOK at hlists
      injection hlists with _ h2
      obtain ⟨hmemE', -, -⟩ := decodeBD_some hd
      have hlenE' : e'.length = P.n := length_of_mem_allVecs P.n e' hmemE'
      have hfst : (bitsToNats e').length = (bitsToNats e).length := by
        rw [length_bitsToNats, length_bitsToNats, hlenE, hlenE']
      obtain ⟨-, hsnd⟩ := List.append_inj h2 hfst
      exact hne (bitsToNats_injective hsnd)
  · rcases @decapsulate_cases P hash sk (flipBit c i) with h | ⟨e', -, -, -, h⟩ <;>
      rw [h] <;> exact hL _

/-- Concrete witness for `bitflip_changes_secret`: flipping bit 0 of the toy
ciphertext. -/
theorem bitflip_changes_secret_witness :
    decapsulate ParamsToy wHash skToy (flipBit ctToy 0) ≠ ssToy ∧
      (decapsulate ParamsToy wHash skToy (flipBit ctToy 0)).length = 32 :=
  bitflip_changes_secret ParamsToy wHash sGenToy sEncToy 1 1 pkToy skToy ctToy
    ssToy 0 wHash_injective wHash_length (by decide) (by decide) (by decide)

/-- C5: every ErrorVector returned by the rejection sampler of Encapsulate is
a length-n bit vector of Hamming weight exactly t, and it is the first
entropy block satisfying the weight constraint — every earlier sampled block
had a different weight and was rejected, never used. -/
theorem sampled_error_weight_exact (P : Params) (s : Nat → Bool)
    (off fuel : Nat) (e : List Bool) (h : sampleError P s off fuel = some e) :
    e.length = P.n ∧ weight e = P.t ∧
      ∃ j, j < fuel ∧ e = readBits s (off + j * P.n) P.n ∧
        ∀ j', j' < j → weight (readBits s (off + j' * P.n) P.n) ≠ P.t :=
  sampleError_some fuel off h

/-- Concrete witness for `sampled_error_weight_exact` on the toy entropy
stream. -/
theorem sampled_error_weight_exact_witness :
    eToy.length = ParamsToy.n ∧ weight eToy = ParamsToy.t ∧
      ∃ j, j < 1 ∧ eToy = readBits sEncToy (0 + j * ParamsToy.n) ParamsToy.n ∧
        ∀ j', j' < j →
          weight (readBits sEncToy (0 + j' * ParamsToy.n) ParamsToy.n) ≠ ParamsToy.t :=
  sampled_error_weight_exact ParamsToy sEncToy 0 1 eToy (by decide)

/-- C6: Encapsulate returns SharedSecret = Hash(domain-tag ‖ ErrorVector ‖
Ciphertext); Decapsulate is characterized by the decoding outcome: when the
decoder returns an error vector passing the §4.4 edge checks (weight exactly
t and re-encoding reproducing the ciphertext), the secret is exactly
Hash(success-tag ‖ ErrorVector ‖ Ciphertext) with the success tag equal to
the encapsulation tag, and when decoding fails (or an edge check fails) the
secret is exactly Hash(failure-tag ‖ private-key secret ‖ Ciphertext). -/
theorem shared_secret_hash_formula :
    (∀ (P : Params) (hash : List Nat → List Nat) (pk : PublicKey)
        (s : Nat → Bool) (fuel : Nat) (c : List Bool) (ss : List Nat),
      encapsulate P hash pk s fuel = some (c, ss) →
      ∃ e, sampleError P s 0 fuel = some e ∧ c = encode P pk e ∧
        ss = hash (hashInputOK e c)) ∧
    (∀ (P : Params) (hash : List Nat → List Nat) (sk : PrivateKey)
        (c : List Bool),
      (∀ e, decodeBD P sk.H c = some e →
        decapsulate P hash sk c =
          if weight e = P.t ∧ syndrome sk.H e = c
          then hash (hashInputOK e c)
          else hash (hashInputRej sk.s c)) ∧
      (decodeBD P sk.H c = none →
        decapsulate P hash sk c = hash (hashInputRej sk.s c))) := by
  constructor
  · intro P hash pk s fuel c ss he
    exact encapsulate_some he
  · intro P hash sk c
    constructor
    · intro e hd
      simp only [decapsulate, hd]
    · intro hd
      simp only [decapsulate, hd]

/-- Concrete witness for `shared_secret_hash_formula` at the toy parameter
set: the toy decoding succeeds with `eToy`, so both the encapsulation
formula and the success branch of the decapsulation formula are exercised. -/
theorem shared_secret_hash_formula_witness :
    (∃ e, sampleError ParamsToy sEncToy 0 1 = some e ∧
      ctToy = encode ParamsToy pkToy e ∧
      ssToy = wHash (hashInputOK e ctToy)) ∧
    decapsulate ParamsToy wHash skToy ctToy =
      (if weight eToy = ParamsToy.t ∧ syndrome skToy.H eToy = ctToy
       then wHash (hashInputOK eToy ctToy)
       else wHash (hashInputRej skToy.s ctToy)) :=
  ⟨shared_secret_hash_formula.1 ParamsToy wHash pkToy sEncToy 1 ctToy ssToy
      (by decide),
   (shared_secret_hash_formula.2 ParamsToy wHash skToy ctToy).1 eToy
      (by decide)⟩

/-- C7: key generation is deterministic given a fixed entropy stream — two
runs reading identical random bits (up to the consumption bound) produce
identical (PublicKey, PrivateKey) pairs — and every produced pair has the
sizes fixed by the parameter set: an (n−k) × k public-key matrix packing to
`pkBytes` bytes, an n-bit rejection secret and an (n−k)-row private matrix. -/
theorem keypair_deterministic_fixed_sizes :
    (∀ (P : Params) (s1 s2 : Nat → Bool) (fuel : Nat),
      (∀ i, i < keypairBudget P fuel → s1 i = s2 i) →
      keypair P s1 fuel = keypair P s2 fuel) ∧
    (∀ (P : Params) (s : Nat → Bool) (fuel : Nat) (pk : PublicKey)
        (sk : PrivateKey),
      keypair P s fuel = some (pk, sk) →
      pk.length = P.n - P.k ∧ (∀ row ∈ pk, row.length = P.k) ∧
        (pack pk.flatten).length = pkBytes P ∧
        sk.s.length = P.n ∧ sk.H.length = P.n - P.k) := by
  constructor
  · intro P s1 s2 fuel h
    unfold keypair
    have hloop : keypairLoop P s1 P.n fuel = keypairLoop P s2 P.n fuel := by
      apply keypairLoop_congr
      intro i hi
      exact h i hi
    rw [hloop]
    cases keypairLoop P s2 P.n fuel with
    | none => rfl
    | some T =>
      have hrb : readBits s1 0 P.n = readBits s2 0 P.n := by
        apply readBits_congr
        intro i hi
        apply h
        show i < P.n + fuel * ((P.n - P.k) * P.k)
        omega
      rw [hrb]
  · intro P s fuel pk sk hk
    obtain ⟨hloop, hsk⟩ := keypair_some hk
    obtain ⟨-, hlen, hrows⟩ := keypairLoop_some _ _ hloop
    refine ⟨hlen, hrows, ?_, ?_, ?_⟩
    · rw [length_pack, length_flatten_of_dims hrows, hlen]
      rfl
    · rw [hsk]
      exact length_readBits ..
    · rw [hsk]
      exact length_systH ..

/-- Concrete witness for `keypair_deterministic_fixed_sizes`: the two toy
streams agree below the budget (7 bits) and differ beyond it, yet generate
the same pair, of the fixed sizes. -/
theorem keypair_deterministic_fixed_sizes_witness :
    keypair ParamsToy sGenToy 1 = keypair ParamsToy sGenToyB 1 ∧
      (pack pkToy.flatten).length = pkBytes ParamsToy :=
  ⟨keypair_deterministic_fixed_sizes.1 ParamsToy sGenToy sGenToyB 1 (by decide),
   (keypair_deterministic_fixed_sizes.2 ParamsToy sGenToy 1 pkToy skToy
      (by decide)).2.2.1⟩

/-- C9: slicing the first 32 bytes of the generated keys for display never
goes out of bounds — every generated public key packs to `pkBytes P` bytes,
which at the fixed parameter set equals `CRYPTO_PUBLICKEYBYTES` = 261120 ≥ 32,
`CRYPTO_SECRETKEYBYTES` = 6492 ≥ 32, and taking 32 of at least 32 bytes
yields exactly 32 bytes. -/
theorem display_slice_in_bounds :
    (∀ (P : Params) (s : Nat → Bool) (fuel : Nat) (pk : PublicKey)
        (sk : PrivateKey),
      keypair P s fuel = some (pk, sk) → (pack pk.flatten).length = pkBytes P) ∧
    32 ≤ CRYPTO_PUBLICKEYBYTES ∧ 32 ≤ CRYPTO_SECRETKEYBYTES ∧
    pkBytes Params348864 = CRYPTO_PUBLICKEYBYTES ∧
    (∀ l : List Nat, 32 ≤ l.length → (l.take 32).length = 32) := by
  refine ⟨?_, by decide, by decide, by decide, ?_⟩
  · intro P s fuel pk sk hk
    obtain ⟨hloop, -⟩ := keypair_some hk
    obtain ⟨-, hlen, hrows⟩ := keypairLoop_some _ _ hloop
    rw [length_pack, length_flatten_of_dims hrows, hlen]
    rfl
  · intro l hl
    rw [List.length_take]
    omega

/-- Concrete witness for `display_slice_in_bounds` at the toy parameter set
and on a 40-byte buffer. -/
theorem display_slice_in_bounds_witness :
    (pack pkToy.flatten).length = pkBytes ParamsToy ∧
      ((List.replicate 40 (0 : Nat)).take 32).length = 32 :=
  ⟨display_slice_in_bounds.1 ParamsToy sGenToy 1 pkToy skToy (by decide),
   display_slice_in_bounds.2.2.2.2 (List.replicate 40 (0 : Nat)) (by decide)⟩

/-- C10: the demo's decapsulation step (main.rs lines 49–53) writes only the
output buffer: the ciphertext and Alice's shared secret are unchanged
afterwards, so the final verification (line 60) compares Alice's original
secret against the freshly decapsulated one. -/
theorem decapsulate_preserves_inputs (P : Params) (hash : List Nat → List Nat)
    (sk : PrivateKey) (st : DemoState) :
    (demoStep3 P hash sk st).ct = st.ct ∧
      (demoStep3 P hash sk st).ssAlice = st.ssAlice ∧
      secretsMatch (demoStep3 P hash sk st)
        = (st.ssAlice == decapsulate P hash sk st.ct) :=
  ⟨rfl, rfl, rfl⟩

end McElieceKEM
